import Mathlib

/-! # Formal model of the grapple-map demo

Shallow embedding of the two script variants of the repository
(`script.js` and the enhanced state-machine variant): 3-D vectors, rigid
chains with the length-preserving `adjust` operation, the planar
linking-number computation, the GrappleMap base-62 pose decoder and
database parser, the nearest-state feature query, and the spec-described
SkeletonTree radial ring clamp.

JavaScript numbers are modelled as real numbers.  A JavaScript `NaN`
arising from reading past the end of the decoder input (`map[undefined]`
is `undefined`, and arithmetic on it yields `NaN`) is modelled as
`Option.none`; an in-range coordinate is `Option.some` of its real value.
JavaScript `Infinity` (the initial best distance of the nearest-state
scan) is modelled as the top element of `EReal`. -/

/-- 3-D vector of reals, modelling the `Vec3` class (fields `x`, `y`, `z`). -/
@[ext]
structure Vec3 where
  x : ℝ
  y : ℝ
  z : ℝ

instance : Zero Vec3 := ⟨⟨0, 0, 0⟩⟩

/-- Componentwise addition, modelling `Vec3.add`. -/
instance : Add Vec3 := ⟨fun a b => ⟨a.x + b.x, a.y + b.y, a.z + b.z⟩⟩

/-- Componentwise subtraction, modelling `Vec3.sub`. -/
instance : Sub Vec3 := ⟨fun a b => ⟨a.x - b.x, a.y - b.y, a.z - b.z⟩⟩

/-- Scalar multiplication, modelling `Vec3.multiplyScalar`. -/
instance : SMul ℝ Vec3 := ⟨fun c v => ⟨c * v.x, c * v.y, c * v.z⟩⟩

/-- Dot product, modelling `Vec3.dot`. -/
noncomputable def dot3 (a b : Vec3) : ℝ := a.x * b.x + a.y * b.y + a.z * b.z

/-- Euclidean norm `Math.hypot(x, y, z)`, modelling `Vec3.length()`. -/
noncomputable def vnorm (v : Vec3) : ℝ := Real.sqrt (v.x ^ 2 + v.y ^ 2 + v.z ^ 2)

/-- Segment lengths recorded by the `Chain` constructor: for every
consecutive pair of joints, the norm of their difference. -/
noncomputable def lengthsOf (js : List Vec3) : List ℝ :=
  (js.zip js.tail).map (fun p => vnorm (p.2 - p.1))

/-- A kinematic chain: the live joint positions together with the segment
lengths fixed at construction, modelling the `Chain` class. -/
structure Chain where
  joints : List Vec3
  lengths : List ℝ

/-- The `Chain` constructor: record the joints and compute the lengths. -/
noncomputable def Chain.ofJoints (js : List Vec3) : Chain :=
  ⟨js, lengthsOf js⟩

/-- Forward propagation loop of `Chain.adjust`: starting at joint `i`,
for `steps` iterations, rescale the vector from joint `i` to joint `i+1`
to the recorded length and move joint `i+1`; a zero-length direction is
skipped.  Returns the updated joints and the list of skipped link
indices (a link `i` joins joints `i` and `i+1`). -/
noncomputable def fwdAux (L : List ℝ) : List Vec3 → ℕ → ℕ → List Vec3 × List ℕ
  | js, _, 0 => (js, [])
  | js, i, steps + 1 =>
    if vnorm (js.getD (i + 1) 0 - js.getD i 0) = 0 then
      ((fwdAux L js (i + 1) steps).1, i :: (fwdAux L js (i + 1) steps).2)
    else
      fwdAux L
        (js.set (i + 1)
          (js.getD i 0 +
            (L.getD i 0 / vnorm (js.getD (i + 1) 0 - js.getD i 0)) •
              (js.getD (i + 1) 0 - js.getD i 0)))
        (i + 1) steps

/-- Backward propagation loop of `Chain.adjust`: the loop variable runs
from `idx` down to `1`; at value `m+1` it rescales the vector from joint
`m+1` to joint `m` to the recorded length `L[m]` and moves joint `m`,
skipping a zero-length direction.  Returns the updated joints and the
skipped link indices. -/
noncomputable def bwdAux (L : List ℝ) : List Vec3 → ℕ → List Vec3 × List ℕ
  | js, 0 => (js, [])
  | js, m + 1 =>
    if vnorm (js.getD m 0 - js.getD (m + 1) 0) = 0 then
      ((bwdAux L js m).1, m :: (bwdAux L js m).2)
    else
      bwdAux L
        (js.set m
          (js.getD (m + 1) 0 +
            (L.getD m 0 / vnorm (js.getD m 0 - js.getD (m + 1) 0)) •
              (js.getD m 0 - js.getD (m + 1) 0)))
        m

/-- `Chain.adjust(idx)`: the forward pass over links `idx … n-2` followed
by the backward pass over links `idx-1 … 0`, exactly as in the source.
The second component collects the link indices skipped because their
direction vector was exactly zero. -/
noncomputable def Chain.adjust (c : Chain) (idx : ℕ) : Chain × List ℕ :=
  (⟨(bwdAux c.lengths
       (fwdAux c.lengths c.joints idx (c.joints.length - 1 - idx)).1 idx).1,
    c.lengths⟩,
   (fwdAux c.lengths c.joints idx (c.joints.length - 1 - idx)).2 ++
     (bwdAux c.lengths
       (fwdAux c.lengths c.joints idx (c.joints.length - 1 - idx)).1 idx).2)

/-- The hypothetical reversed-order adjustment: backward pass first, then
the forward pass, used to compare against the implemented order. -/
noncomputable def Chain.adjustRev (c : Chain) (idx : ℕ) : Chain × List ℕ :=
  (⟨(fwdAux c.lengths (bwdAux c.lengths c.joints idx).1 idx
       ((bwdAux c.lengths c.joints idx).1.length - 1 - idx)).1,
    c.lengths⟩,
   (bwdAux c.lengths c.joints idx).2 ++
     (fwdAux c.lengths (bwdAux c.lengths c.joints idx).1 idx
       ((bwdAux c.lengths c.joints idx).1.length - 1 - idx)).2)

/-- 2-D orientation test of `computeLinking` / `computeLinkingBetween`:
`(b.x - a.x) * (c.y - a.y) - (b.y - a.y) * (c.x - a.x)`.  Only the `x`
and `y` components are read. -/
noncomputable def orient (a b c : Vec3) : ℝ :=
  (b.x - a.x) * (c.y - a.y) - (b.y - a.y) * (c.x - a.x)

/-- Consecutive-segment list of a polyline, as built by the `segs`
helper of `computeLinking` and the loops of `computeLinkingBetween`. -/
def segs : List Vec3 → List (Vec3 × Vec3)
  | [] => []
  | [_] => []
  | a :: b :: t => (a, b) :: segs (b :: t)

/-- Contribution of one segment pair to the signed crossing count, as in
the source: `+1` or `-1` when both strict straddle tests pass, chosen by
whether the first orientation term is positive, and `0` otherwise. -/
noncomputable def crossingContrib (sa sb : Vec3 × Vec3) : ℝ :=
  if orient sa.1 sa.2 sb.1 * orient sa.1 sa.2 sb.2 < 0 ∧
      orient sb.1 sb.2 sa.1 * orient sb.1 sb.2 sa.2 < 0 then
    (if 0 < orient sa.1 sa.2 sb.1 then 1 else -1)
  else 0

/-- `computeLinkingBetween(jointsA, jointsB)`: half the sum of the signed
crossing contributions over all segment pairs.  `computeLinking()` in
both script variants is the same computation applied to the two live
chains' joint arrays. -/
noncomputable def computeLinkingBetween (A B : List Vec3) : ℝ :=
  (((segs A).map (fun sa => ((segs B).map (fun sb => crossingContrib sa sb)).sum)).sum) / 2

/-- Modelled from the spec's words (for refinement comparison only): a
segment pair contributes `0` whenever either orientation product is
exactly zero, the sign of the first orientation term when both strict
straddle conditions hold, and `0` otherwise. -/
noncomputable def specCrossingTerm (sa sb : Vec3 × Vec3) : ℝ :=
  if orient sa.1 sa.2 sb.1 * orient sa.1 sa.2 sb.2 = 0 ∨
      orient sb.1 sb.2 sa.1 * orient sb.1 sb.2 sa.2 = 0 then 0
  else if orient sa.1 sa.2 sb.1 * orient sa.1 sa.2 sb.2 < 0 ∧
      orient sb.1 sb.2 sa.1 * orient sb.1 sb.2 sa.2 < 0 then
    Real.sign (orient sa.1 sa.2 sb.1)
  else 0

/-- Modelled from the spec's words (for refinement comparison only): the
linking value is one half of the sum of `specCrossingTerm` over every
pair of one consecutive segment of `A` and one of `B`. -/
noncomputable def specLinkingValue (A B : List Vec3) : ℝ :=
  (((segs A).map (fun sa => ((segs B).map (fun sb => specCrossingTerm sa sb)).sum)).sum) / 2

/-- Projection onto the X,Y plane, used to state that the Z coordinates
never affect the linking computation. -/
def projXY (v : Vec3) : ℝ × ℝ := (v.x, v.y)

/-- Rewrite the `z` component of a vector by an arbitrary rule, keeping
`x` and `y`; an auxiliary construction for the Z-independence proof. -/
def zset (f : Vec3 → ℝ) (v : Vec3) : Vec3 := ⟨v.x, v.y, f v⟩

/-- The base-62 alphabet of `decodePositionString`: lowercase letters,
then uppercase letters, then digits; a symbol's value is its position. -/
def base62chars : List Char :=
  "abcdefghijklmnopqrstuvwxyzABCDEFGHIJKLMNOPQRSTUVWXYZ0123456789".toList

/-- Position of a character in a list, counting from `n`; `none` when the
character does not occur.  Models the `map` object built by the decoder
(an absent key reads as `undefined`). -/
def idxLookup (c : Char) : List Char → ℕ → Option ℕ
  | [], _ => none
  | d :: rest, n => if d = c then some n else idxLookup c rest (n + 1)

/-- Value of a base-62 symbol: its index in the alphabet, `none` for a
character outside the alphabet. -/
def charIndex (c : Char) : Option ℕ := idxLookup c base62chars 0

/-- The whitespace test `/\s/` of the decoder, on the characters that can
occur in the ASCII database text. -/
def isWsB (c : Char) : Bool :=
  c == ' ' || c == '\t' || c == '\n' || c == '\r' || c == '\x0b' || c == '\x0c'

/-- `nextdigit()`: skip whitespace, then consume one character and return
its alphabet value; reading past the end of the input yields `none`
(JavaScript `undefined`). -/
def nextdigit : List Char → Option ℕ × List Char
  | [] => (none, [])
  | c :: rest => if isWsB c then nextdigit rest else (charIndex c, rest)

/-- `g()`: consume two symbols and return `(d0 * 62 + d1) / 1000`; `none`
(JavaScript `NaN`) when either symbol was missing or invalid. -/
noncomputable def gPair (s : List Char) : Option ℝ × List Char :=
  (match (nextdigit s).1, (nextdigit (nextdigit s).2).1 with
   | some a, some b => some (((a : ℝ) * 62 + (b : ℝ)) / 1000)
   | _, _ => none,
   (nextdigit (nextdigit s).2).2)

/-- A decoded joint position; each coordinate is `none` when the decoder
produced `NaN` for it. -/
structure Pos3 where
  x : Option ℝ
  y : Option ℝ
  z : Option ℝ

instance : Inhabited Pos3 := ⟨⟨none, none, none⟩⟩

/-- The all-`none` position, used as a `getD` default. -/
def pos0 : Pos3 := ⟨none, none, none⟩

/-- One iteration of the decoder loop: `x = g() - 2; y = g(); z = g() - 2`. -/
noncomputable def decodeJoint (s : List Char) : Pos3 × List Char :=
  (⟨((gPair s).1).map (fun t => t - 2),
    ((gPair (gPair s).2).1),
    ((gPair (gPair (gPair s).2).2).1).map (fun t => t - 2)⟩,
   (gPair (gPair (gPair s).2).2).2)

/-- `n` iterations of the decoder loop. -/
noncomputable def decodeJoints : ℕ → List Char → List Pos3 × List Char
  | 0, s => ([], s)
  | n + 1, s => ((decodeJoint s).1 :: (decodeJoints n (decodeJoint s).2).1,
                 (decodeJoints n (decodeJoint s).2).2)

/-- `decodePositionString(s)`: decode `23 * 2 = 46` joint positions. -/
noncomputable def decodePositionString (s : List Char) : List Pos3 :=
  (decodeJoints 46 s).1

/-- Real value of the base-62 symbol at index `k` of a character list
(used only to state the decoder characterisation). -/
noncomputable def symVal (cs : List Char) (k : ℕ) : ℝ :=
  (((charIndex (cs.getD k ' ')).getD 0 : ℕ) : ℝ)

/-- JavaScript `String.trim()` on a character list: drop the whitespace
at both ends. -/
def trimChars (l : List Char) : List Char :=
  ((l.dropWhile isWsB).reverse.dropWhile isWsB).reverse

/-- Does a line start with the reserved tag marker `tags:` after
trimming? -/
def startsTags : List Char → Bool
  | 't' :: 'a' :: 'g' :: 's' :: ':' :: _ => true
  | _ => false

/-- The `/^\s/` test of the parser: does the raw line begin with a
whitespace character? -/
def startsWs : List Char → Bool
  | [] => false
  | c :: _ => isWsB c

/-- One parsed database entry: the (joined) description name and the
decoded raw joint positions.  The simplified-chain and skeleton
derivations applied by `parseGrappleMap` before pushing are positionwise
arithmetic on these positions and do not affect which entries are
ingested, so they are not modelled here. -/
structure PoseEntry where
  name : List Char
  positions : List Pos3

/-- `finalize()` of `parseGrappleMap`: when encoded lines have been
accumulated, join their trimmed contents, decode, and keep the entry
when at least 46 positions came back.  There is no failure case: the
decoder is total (it never throws), exactly as in the source. -/
noncomputable def finalizeEntry (count : ℕ) (nameLines encLines : List (List Char)) :
    List PoseEntry :=
  if encLines.isEmpty then []
  else
    if 46 ≤ (decodePositionString (encLines.map trimChars).flatten).length then
      [⟨if (List.intercalate ['\n'] nameLines).isEmpty then
          'P' :: 'o' :: 's' :: 'e' :: ' ' :: (Nat.repr (count + 1)).toList
        else List.intercalate ['\n'] nameLines,
        decodePositionString (encLines.map trimChars).flatten⟩]
  else []

/-- Line scanning loop of `parseGrappleMap` (default unlimited `limit`):
blank lines are skipped, indented lines accumulate as encoded data,
`tags:` lines are ignored, and a new description line after an encoded
block finalizes the previous entry. -/
noncomputable def parseGo :
    List (List Char) → List (List Char) → List (List Char) → List PoseEntry → List PoseEntry
  | [], nameLines, encLines, acc => acc ++ finalizeEntry acc.length nameLines encLines
  | line :: rest, nameLines, encLines, acc =>
    if (trimChars line).isEmpty then parseGo rest nameLines encLines acc
    else if startsWs line then parseGo rest nameLines (encLines ++ [line]) acc
    else if startsTags (trimChars line) then parseGo rest nameLines encLines acc
    else if encLines.isEmpty then parseGo rest (nameLines ++ [trimChars line]) encLines acc
    else parseGo rest [trimChars line] [] (acc ++ finalizeEntry acc.length nameLines encLines)

/-- `parseGrappleMap(text)` over the list of lines of the database text. -/
noncomputable def parseGrappleMap (lines : List (List Char)) : List PoseEntry :=
  parseGo lines [] [] []

/-- Euclidean distance in the 2-value feature space, as computed by
`findNearestState`. -/
noncomputable def distF (feat f : ℝ × ℝ) : ℝ :=
  Real.sqrt ((f.1 - feat.1) * (f.1 - feat.1) + (f.2 - feat.2) * (f.2 - feat.2))

/-- One step of the `findNearestState` scan: a state without a feature
vector is skipped; otherwise the best index/distance pair is replaced
when the new distance is strictly smaller. -/
noncomputable def nearStep (feat : ℝ × ℝ) (acc : ℤ × EReal) (p : ℕ × Option (ℝ × ℝ)) :
    ℤ × EReal :=
  match p.2 with
  | none => acc
  | some f => if (distF feat f : EReal) < acc.2 then ((p.1 : ℤ), (distF feat f : EReal)) else acc

/-- `findNearestState(feat)`: linear scan over the states with initial
best index `-1` and best distance `Infinity`. -/
noncomputable def findNearestState (states : List (Option (ℝ × ℝ))) (feat : ℝ × ℝ) :
    ℤ × EReal :=
  states.enum.foldl (nearStep feat) (-1, ⊤)

/-- Modelled from the spec: the `SkeletonTree` component of the
repository (spec section 4.2) is not present under `src/`; this is the
radial clamp applied before a move of the head or a shoulder, following
the spec's words: with `u` the unit vector from the ring partner `j` to
the moved joint at `p`, when the component of `delta` along `u` is
positive and applying `delta` would make the distance to `j` exceed
`ringWidth`, the excess radial component is subtracted from `delta`;
otherwise `delta` is returned unchanged. -/
noncomputable def clampRadial (p j : Vec3) (R : ℝ) (delta : Vec3) : Vec3 :=
  if 0 < dot3 delta ((1 / vnorm (p - j)) • (p - j)) ∧ R < vnorm (p + delta - j) then
    delta -
      ((vnorm (p - j) + dot3 delta ((1 / vnorm (p - j)) • (p - j))) - R) •
        ((1 / vnorm (p - j)) • (p - j))
  else delta

/-- Modelled from the spec: moving the head clamps against both
shoulders; the corrections are applied partner by partner and
accumulate.  The returned value is the new head position. -/
noncomputable def moveHeadClamped (head ls rs : Vec3) (R : ℝ) (delta : Vec3) : Vec3 :=
  head + clampRadial head rs R (clampRadial head ls R delta)

/-! ## Basic vector and list lemmas -/

@[simp] lemma Vec3.zero_x : (0 : Vec3).x = 0 := rfl

@[simp] lemma Vec3.zero_y : (0 : Vec3).y = 0 := rfl

@[simp] lemma Vec3.zero_z : (0 : Vec3).z = 0 := rfl

@[simp] lemma Vec3.add_def_x (a b : Vec3) : (a + b).x = a.x + b.x := rfl

@[simp] lemma Vec3.add_def_y (a b : Vec3) : (a + b).y = a.y + b.y := rfl

@[simp] lemma Vec3.add_def_z (a b : Vec3) : (a + b).z = a.z + b.z := rfl

@[simp] lemma Vec3.sub_def_x (a b : Vec3) : (a - b).x = a.x - b.x := rfl

@[simp] lemma Vec3.sub_def_y (a b : Vec3) : (a - b).y = a.y - b.y := rfl

@[simp] lemma Vec3.sub_def_z (a b : Vec3) : (a - b).z = a.z - b.z := rfl

@[simp] lemma Vec3.smul_def_x (c : ℝ) (v : Vec3) : (c • v).x = c * v.x := rfl

@[simp] lemma Vec3.smul_def_y (c : ℝ) (v : Vec3) : (c • v).y = c * v.y := rfl

@[simp] lemma Vec3.smul_def_z (c : ℝ) (v : Vec3) : (c • v).z = c * v.z := rfl

lemma vnorm_nonneg (v : Vec3) : 0 ≤ vnorm v := Real.sqrt_nonneg _

lemma vnorm_smul (c : ℝ) (v : Vec3) : vnorm (c • v) = |c| * vnorm v := by
  unfold vnorm
  rw [show (c • v).x ^ 2 + (c • v).y ^ 2 + (c • v).z ^ 2
      = c ^ 2 * (v.x ^ 2 + v.y ^ 2 + v.z ^ 2) by simp; ring,
    Real.sqrt_mul (sq_nonneg c), Real.sqrt_sq_eq_abs]

lemma vnorm_sub_symm (u v : Vec3) : vnorm (u - v) = vnorm (v - u) := by
  unfold vnorm
  rw [show (u - v).x ^ 2 + (u - v).y ^ 2 + (u - v).z ^ 2
      = (v - u).x ^ 2 + (v - u).y ^ 2 + (v - u).z ^ 2 by simp; ring]

lemma vec_add_sub_cancel (a v : Vec3) : a + v - a = v := by
  ext <;> simp

lemma getD_set {α : Type*} (l : List α) :
    ∀ (m j : ℕ) (v d : α),
      (l.set m v).getD j d = if m = j ∧ m < l.length then v else l.getD j d := by
  induction l with
  | nil => intro m j v d; simp
  | cons a t ih =>
    intro m j v d
    cases m with
    | zero =>
      cases j with
      | zero => simp
      | succ j2 => simp
    | succ m2 =>
      cases j with
      | zero => simp
      | succ j2 =>
        simp only [List.set_cons_succ, List.getD_cons_succ, List.length_cons]
        rw [ih]
        congr 1
        simp [Nat.succ_lt_succ_iff]

lemma getD_drop {α : Type*} :
    ∀ (m : ℕ) (l : List α) (k : ℕ) (d : α), (l.drop m).getD k d = l.getD (m + k) d := by
  intro m
  induction m with
  | zero => intro l k d; simp
  | succ m2 ih =>
    intro l k d
    cases l with
    | nil => simp
    | cons a t =>
      simp only [List.drop_succ_cons]
      rw [ih, Nat.succ_add, List.getD_cons_succ]

lemma list_eq_of_getD {α : Type*} (d : α) :
    ∀ (l1 l2 : List α), l1.length = l2.length →
      (∀ j, l1.getD j d = l2.getD j d) → l1 = l2 := by
  intro l1
  induction l1 with
  | nil =>
    intro l2 hlen _
    cases l2 with
    | nil => rfl
    | cons b t => simp at hlen
  | cons a t ih =>
    intro l2 hlen hget
    cases l2 with
    | nil => simp at hlen
    | cons b t2 =>
      have h0 := hget 0
      simp only [List.getD_cons_zero] at h0
      have ht : t = t2 := by
        apply ih
        · simpa using hlen
        · intro j
          have := hget (j + 1)
          simpa using this
      rw [h0, ht]

lemma getD_nonneg_of_forall (l : List ℝ) (h : ∀ x ∈ l, 0 ≤ x) (n : ℕ) :
    0 ≤ l.getD n 0 := by
  by_cases hn : n < l.length
  · rw [List.getD_eq_getElem l 0 hn]
    exact h _ (List.getElem_mem hn)
  · rw [List.getD_eq_default l 0 (le_of_not_lt hn)]

lemma lengthsOf_nonneg (js : List Vec3) (n : ℕ) : 0 ≤ (lengthsOf js).getD n 0 := by
  apply getD_nonneg_of_forall
  intro x hx
  unfold lengthsOf at hx
  obtain ⟨p, _, hp⟩ := List.mem_map.mp hx
  rw [← hp]
  exact vnorm_nonneg _

/-! ## Propagation-pass lemmas for `Chain.adjust` -/

lemma fwdAux_length (L : List ℝ) :
    ∀ (steps i : ℕ) (js : List Vec3), (fwdAux L js i steps).1.length = js.length := by
  intro steps
  induction steps with
  | zero => intro i js; simp [fwdAux]
  | succ s ih =>
    intro i js
    simp only [fwdAux]
    split_ifs with h0
    · exact ih (i + 1) js
    · rw [ih]; simp

lemma bwdAux_length (L : List ℝ) :
    ∀ (m : ℕ) (js : List Vec3), (bwdAux L js m).1.length = js.length := by
  intro m
  induction m with
  | zero => intro js; simp [bwdAux]
  | succ m2 ih =>
    intro js
    simp only [bwdAux]
    split_ifs with h0
    · exact ih js
    · rw [ih]; simp

lemma fwdAux_getD_le (L : List ℝ) :
    ∀ (steps i : ℕ) (js : List Vec3) (j : ℕ), j ≤ i →
      (fwdAux L js i steps).1.getD j 0 = js.getD j 0 := by
  intro steps
  induction steps with
  | zero => intro i js j hj; simp [fwdAux]
  | succ s ih =>
    intro i js j hj
    simp only [fwdAux]
    split_ifs with h0
    · exact ih (i + 1) js j (by omega)
    · rw [ih (i + 1) _ j (by omega), getD_set]
      rw [if_neg (by omega : ¬(i + 1 = j ∧ i + 1 < js.length))]

lemma bwdAux_getD_ge (L : List ℝ) :
    ∀ (m : ℕ) (js : List Vec3) (j : ℕ), m ≤ j →
      (bwdAux L js m).1.getD j 0 = js.getD j 0 := by
  intro m
  induction m with
  | zero => intro js j hj; simp [bwdAux]
  | succ m2 ih =>
    intro js j hj
    simp only [bwdAux]
    split_ifs with h0
    · exact ih js j (by omega)
    · rw [ih _ j (by omega), getD_set]
      rw [if_neg (by omega : ¬(m2 = j ∧ m2 < js.length))]

lemma fwdAux_establishes (L : List ℝ) (hL : ∀ n, 0 ≤ L.getD n 0) :
    ∀ (steps i : ℕ) (js : List Vec3), i + steps < js.length →
      ∀ j, i ≤ j → j < i + steps → j ∉ (fwdAux L js i steps).2 →
        vnorm ((fwdAux L js i steps).1.getD (j + 1) 0 - (fwdAux L js i steps).1.getD j 0)
          = L.getD j 0 := by
  intro steps
  induction steps with
  | zero => intro i js hb j h1 h2 h3; omega
  | succ s ih =>
    intro i js hb j h1 h2 h3
    by_cases h0 : vnorm (js.getD (i + 1) 0 - js.getD i 0) = 0
    · simp only [fwdAux, if_pos h0] at h3 ⊢
      have h3p : ¬j = i ∧ j ∉ (fwdAux L js (i + 1) s).2 := by simpa using h3
      exact ih (i + 1) js (by omega) j (by omega) (by omega) h3p.2
    · simp only [fwdAux, if_neg h0] at h3 ⊢
      rcases eq_or_lt_of_le h1 with hji | hji
      · rw [hji] at h0 h3 ⊢
        rw [fwdAux_getD_le L s (j + 1) _ (j + 1) (le_refl _),
          fwdAux_getD_le L s (j + 1) _ j (by omega), getD_set, getD_set]
        rw [if_pos ⟨rfl, by omega⟩]
        rw [if_neg (by omega : ¬(j + 1 = j ∧ j + 1 < js.length))]
        rw [vec_add_sub_cancel, vnorm_smul,
          abs_of_nonneg (div_nonneg (hL j) (vnorm_nonneg _)), div_mul_cancel₀ _ h0]
      · exact ih (i + 1) _ (by simpa using (by omega : (i + 1) + s < js.length)) j
          (by omega) (by omega) h3

lemma bwdAux_establishes (L : List ℝ) (hL : ∀ n, 0 ≤ L.getD n 0) :
    ∀ (m : ℕ) (js : List Vec3) (j : ℕ), j + 1 < js.length → j < m → j ∉ (bwdAux L js m).2 →
      vnorm ((bwdAux L js m).1.getD (j + 1) 0 - (bwdAux L js m).1.getD j 0) = L.getD j 0 := by
  intro m
  induction m with
  | zero => intro js j hlen hj h3; omega
  | succ m2 ih =>
    intro js j hlen hj h3
    by_cases h0 : vnorm (js.getD m2 0 - js.getD (m2 + 1) 0) = 0
    · simp only [bwdAux, if_pos h0] at h3 ⊢
      have h3p : ¬j = m2 ∧ j ∉ (bwdAux L js m2).2 := by simpa using h3
      exact ih js j hlen (by omega) h3p.2
    · simp only [bwdAux, if_neg h0] at h3 ⊢
      by_cases hj2 : j = m2
      · rw [← hj2] at h0 h3 ⊢
        rw [bwdAux_getD_ge L j _ (j + 1) (by omega), bwdAux_getD_ge L j _ j (le_refl _),
          getD_set, getD_set]
        rw [if_neg (by omega : ¬(j = j + 1 ∧ j < js.length))]
        rw [if_pos ⟨rfl, by omega⟩]
        rw [vnorm_sub_symm, vec_add_sub_cancel, vnorm_smul,
          abs_of_nonneg (div_nonneg (hL j) (vnorm_nonneg _)), div_mul_cancel₀ _ h0]
      · exact ih _ j (by simpa using hlen) (by omega) h3

lemma fwdAux_congr (L : List ℝ) :
    ∀ (steps i : ℕ) (js1 js2 : List Vec3), js1.length = js2.length →
      (∀ j, i ≤ j → js1.getD j 0 = js2.getD j 0) →
      ∀ j, i ≤ j → (fwdAux L js1 i steps).1.getD j 0 = (fwdAux L js2 i steps).1.getD j 0 := by
  intro steps
  induction steps with
  | zero => intro i js1 js2 hlen hag j hj; simpa [fwdAux] using hag j hj
  | succ s ih =>
    intro i js1 js2 hlen hag j hj
    have e1 : js1.getD i 0 = js2.getD i 0 := hag i (le_refl i)
    have e2 : js1.getD (i + 1) 0 = js2.getD (i + 1) 0 := hag (i + 1) (by omega)
    simp only [fwdAux, e1, e2]
    split_ifs with h0
    · rcases eq_or_lt_of_le hj with hji | hji
      · rw [fwdAux_getD_le L s (i + 1) js1 j (by omega),
          fwdAux_getD_le L s (i + 1) js2 j (by omega)]
        exact hag j hj
      · exact ih (i + 1) js1 js2 hlen (fun j2 hj2 => hag j2 (by omega)) j (by omega)
    · rcases eq_or_lt_of_le hj with hji | hji
      · rw [fwdAux_getD_le L s (i + 1) _ j (by omega),
          fwdAux_getD_le L s (i + 1) _ j (by omega), getD_set, getD_set]
        rw [if_neg (by omega : ¬(i + 1 = j ∧ i + 1 < js1.length))]
        rw [if_neg (by omega : ¬(i + 1 = j ∧ i + 1 < js2.length))]
        exact hag j hj
      · refine ih (i + 1) _ _ (by simpa using hlen) ?_ j (by omega)
        intro j2 hj2
        rw [getD_set, getD_set, hlen]
        split_ifs with hc
        · rfl
        · exact hag j2 (by omega)

lemma bwdAux_congr (L : List ℝ) :
    ∀ (m : ℕ) (js1 js2 : List Vec3), js1.length = js2.length →
      (∀ j, j ≤ m → js1.getD j 0 = js2.getD j 0) →
      ∀ j, j ≤ m → (bwdAux L js1 m).1.getD j 0 = (bwdAux L js2 m).1.getD j 0 := by
  intro m
  induction m with
  | zero => intro js1 js2 hlen hag j hj; simpa [bwdAux] using hag j hj
  | succ m2 ih =>
    intro js1 js2 hlen hag j hj
    have e1 : js1.getD (m2 + 1) 0 = js2.getD (m2 + 1) 0 := hag (m2 + 1) (le_refl _)
    have e2 : js1.getD m2 0 = js2.getD m2 0 := hag m2 (by omega)
    simp only [bwdAux, e1, e2]
    split_ifs with h0
    · rcases eq_or_lt_of_le hj with hjm | hjm
      · rw [hjm, bwdAux_getD_ge L m2 js1 (m2 + 1) (by omega),
          bwdAux_getD_ge L m2 js2 (m2 + 1) (by omega)]
        exact hag (m2 + 1) (le_refl _)
      · exact ih js1 js2 hlen (fun j2 hj2 => hag j2 (by omega)) j (by omega)
    · rcases eq_or_lt_of_le hj with hjm | hjm
      · rw [hjm, bwdAux_getD_ge L m2 _ (m2 + 1) (by omega),
          bwdAux_getD_ge L m2 _ (m2 + 1) (by omega), getD_set, getD_set]
        rw [if_neg (by omega : ¬(m2 = m2 + 1 ∧ m2 < js1.length))]
        rw [if_neg (by omega : ¬(m2 = m2 + 1 ∧ m2 < js2.length))]
        exact hag (m2 + 1) (le_refl _)
      · refine ih _ _ (by simpa using hlen) ?_ j (by omega)
        intro j2 hj2
        rw [getD_set, getD_set, hlen]
        split_ifs with hc
        · rfl
        · exact hag j2 (by omega)

/-- C1: for a chain whose segment lengths were recorded at construction
from initial joints `js0`, after moving any joint of the current joints
`js` and running `Chain.adjust k`, every consecutive pair of joints is at
distance exactly the recorded length of its link, except for the links
whose direction vector was exactly zero during that adjust (collected in
the skip list), which may remain broken.  Since the current joints are
arbitrary, this covers every state reached by any sequence of moves. -/
theorem chain_adjust_length_invariance (js0 js : List Vec3) (k i : ℕ)
    (hi : i + 1 < js.length)
    (hsk : i ∉ (Chain.adjust ⟨js, lengthsOf js0⟩ k).2) :
    vnorm ((Chain.adjust ⟨js, lengthsOf js0⟩ k).1.joints.getD (i + 1) 0 -
        (Chain.adjust ⟨js, lengthsOf js0⟩ k).1.joints.getD i 0)
      = (lengthsOf js0).getD i 0 := by
  have hL : ∀ n, 0 ≤ (lengthsOf js0).getD n 0 := lengthsOf_nonneg js0
  unfold Chain.adjust at hsk ⊢
  dsimp only at hsk ⊢
  simp only [List.mem_append, not_or] at hsk
  rcases le_or_lt k i with hki | hki
  · have hkb : k + (js.length - 1 - k) < js.length := by omega
    rw [bwdAux_getD_ge _ k _ (i + 1) (by omega), bwdAux_getD_ge _ k _ i (by omega)]
    exact fwdAux_establishes _ hL _ k js hkb i hki (by omega) hsk.1
  · apply bwdAux_establishes _ hL k _ i
    · rw [fwdAux_length]; omega
    · omega
    · exact hsk.2

/-- C1 witness: a two-joint chain built at distance 1, with joint 1 moved
to distance 2; `adjust 1` skips nothing and restores the link length. -/
theorem chain_adjust_length_invariance_witness :
    0 + 1 < ([⟨0, 0, 0⟩, ⟨0, 2, 0⟩] : List Vec3).length ∧
      0 ∉ (Chain.adjust ⟨[⟨0, 0, 0⟩, ⟨0, 2, 0⟩],
            lengthsOf [⟨0, 0, 0⟩, ⟨0, 1, 0⟩]⟩ 1).2 ∧
      vnorm ((Chain.adjust ⟨[⟨0, 0, 0⟩, ⟨0, 2, 0⟩],
            lengthsOf [⟨0, 0, 0⟩, ⟨0, 1, 0⟩]⟩ 1).1.joints.getD (0 + 1) 0 -
          (Chain.adjust ⟨[⟨0, 0, 0⟩, ⟨0, 2, 0⟩],
            lengthsOf [⟨0, 0, 0⟩, ⟨0, 1, 0⟩]⟩ 1).1.joints.getD 0 0)
        = (lengthsOf [⟨0, 0, 0⟩, ⟨0, 1, 0⟩]).getD 0 0 := by
  have hlen : ([⟨0, 0, 0⟩, ⟨0, 2, 0⟩] : List Vec3).length = 2 := rfl
  have hv : vnorm (((⟨0, 0, 0⟩ : Vec3) - ⟨0, 2, 0⟩)) ≠ 0 := by
    unfold vnorm
    simp only [Vec3.sub_def_x, Vec3.sub_def_y, Vec3.sub_def_z]
    rw [show ((0 : ℝ) - 0) ^ 2 + (0 - 2) ^ 2 + (0 - 0) ^ 2 = 2 ^ 2 by norm_num,
      Real.sqrt_sq (by norm_num : (0 : ℝ) ≤ 2)]
    norm_num
  have hsk : (Chain.adjust ⟨[⟨0, 0, 0⟩, ⟨0, 2, 0⟩],
      lengthsOf [⟨0, 0, 0⟩, ⟨0, 1, 0⟩]⟩ 1).2 = [] := by
    unfold Chain.adjust
    simp only [hlen]
    norm_num [fwdAux, bwdAux]
    rw [if_neg hv]
  refine ⟨by norm_num, by rw [hsk]; exact List.not_mem_nil 0, ?_⟩
  apply chain_adjust_length_invariance
  · norm_num
  · rw [hsk]; exact List.not_mem_nil 0

/-- C7: running the backward propagation pass before the forward pass
produces exactly the same final joint positions as the implemented
forward-then-backward order, for every chain and every moved index. -/
theorem chain_adjust_pass_order (c : Chain) (k : ℕ) :
    (Chain.adjustRev c k).1.joints = (Chain.adjust c k).1.joints := by
  unfold Chain.adjust Chain.adjustRev
  simp only
  have hblen : (bwdAux c.lengths c.joints k).1.length = c.joints.length :=
    bwdAux_length _ _ _
  apply list_eq_of_getD (0 : Vec3)
  · rw [fwdAux_length, bwdAux_length, bwdAux_length, fwdAux_length]
  · intro j
    rcases le_or_lt k j with hkj | hkj
    · rw [bwdAux_getD_ge _ k _ j hkj, hblen]
      exact fwdAux_congr _ _ k _ _ hblen
        (fun j2 hj2 => bwdAux_getD_ge _ k _ j2 hj2) j hkj
    · rw [fwdAux_getD_le _ _ k _ j (by omega)]
      exact (bwdAux_congr _ k _ _ (fwdAux_length _ _ _ _)
        (fun j2 hj2 => fwdAux_getD_le _ _ k _ j2 hj2) j (by omega)).symm

/-- C9: `Chain.adjust idx` never modifies the joint at index `idx`
itself; the moved joint stays exactly where the caller placed it. -/
theorem chain_adjust_fixes_moved_joint (c : Chain) (idx : ℕ) :
    (Chain.adjust c idx).1.joints.getD idx 0 = c.joints.getD idx 0 := by
  unfold Chain.adjust
  simp only
  rw [bwdAux_getD_ge _ idx _ idx (le_refl idx),
    fwdAux_getD_le _ _ idx _ idx (le_refl idx)]

/-! ## Linking-number lemmas -/

lemma crossingContrib_eq_spec (sa sb : Vec3 × Vec3) :
    crossingContrib sa sb = specCrossingTerm sa sb := by
  unfold crossingContrib specCrossingTerm
  by_cases hz : orient sa.1 sa.2 sb.1 * orient sa.1 sa.2 sb.2 = 0 ∨
      orient sb.1 sb.2 sa.1 * orient sb.1 sb.2 sa.2 = 0
  · rw [if_pos hz]
    rcases hz with hz | hz
    · rw [if_neg]
      intro hc
      rw [hz] at hc
      exact lt_irrefl 0 hc.1
    · rw [if_neg]
      intro hc
      rw [hz] at hc
      exact lt_irrefl 0 hc.2
  · rw [if_neg hz]
    push_neg at hz
    by_cases hc : orient sa.1 sa.2 sb.1 * orient sa.1 sa.2 sb.2 < 0 ∧
        orient sb.1 sb.2 sa.1 * orient sb.1 sb.2 sa.2 < 0
    · rw [if_pos hc, if_pos hc]
      have h1 : orient sa.1 sa.2 sb.1 ≠ 0 := by
        intro h
        rw [h, zero_mul] at hc
        exact lt_irrefl 0 hc.1
      rcases lt_or_gt_of_ne h1 with hneg | hpos
      · rw [if_neg (not_lt_of_gt hneg), Real.sign_of_neg hneg]
      · rw [if_pos hpos, Real.sign_of_pos hpos]
    · rw [if_neg hc, if_neg hc]

lemma orient_swap (a b c : Vec3) : orient b a c = -orient a b c := by
  unfold orient; ring

lemma crossingContrib_swap (sa sb : Vec3 × Vec3) :
    crossingContrib (Prod.swap sa) (Prod.swap sb) = crossingContrib sa sb := by
  obtain ⟨p, q⟩ := sa
  obtain ⟨r, s⟩ := sb
  unfold crossingContrib
  dsimp only [Prod.swap, Prod.fst, Prod.snd]
  rw [show orient q p s = -orient p q s from orient_swap p q s,
    show orient q p r = -orient p q r from orient_swap p q r,
    show orient s r q = -orient r s q from orient_swap r s q,
    show orient s r p = -orient r s p from orient_swap r s p]
  rw [show -orient p q s * -orient p q r = orient p q r * orient p q s by ring,
    show -orient r s q * -orient r s p = orient r s p * orient r s q by ring]
  by_cases hc : orient p q r * orient p q s < 0 ∧ orient r s p * orient r s q < 0
  · rw [if_pos hc, if_pos hc]
    rcases mul_neg_iff.mp hc.1 with ⟨h1, h2⟩ | ⟨h1, h2⟩
    · rw [if_pos (by linarith : (0 : ℝ) < -orient p q s), if_pos h1]
    · rw [if_neg (by linarith : ¬(0 : ℝ) < -orient p q s),
        if_neg (by linarith : ¬(0 : ℝ) < orient p q r)]
  · rw [if_neg hc, if_neg hc]

lemma segs_map (h : Vec3 → Vec3) :
    ∀ A : List Vec3, segs (A.map h) = (segs A).map (Prod.map h h) := by
  intro A
  induction A with
  | nil => simp [segs]
  | cons a T ih =>
    cases T with
    | nil => simp [segs]
    | cons b t =>
      simp only [List.map_cons, segs, List.map_cons] at ih ⊢
      rw [ih]
      rfl

lemma segs_snoc (x : Vec3) :
    ∀ L : List Vec3,
      segs (L ++ [x]) = segs L ++ ((L.getLast?).map (fun y => (y, x))).toList := by
  intro L
  induction L with
  | nil => simp [segs]
  | cons a T ih =>
    cases T with
    | nil => simp [segs]
    | cons b t =>
      have hcc : ((a :: b :: t) ++ [x]) = a :: b :: (t ++ [x]) := by simp
      rw [hcc]
      show (a, b) :: segs (b :: (t ++ [x])) = _
      rw [show b :: (t ++ [x]) = (b :: t) ++ [x] by simp, ih]
      simp [segs]

lemma segs_reverse :
    ∀ A : List Vec3, segs A.reverse = ((segs A).map Prod.swap).reverse := by
  intro A
  induction A with
  | nil => simp [segs]
  | cons a T ih =>
    rw [List.reverse_cons, segs_snoc, ih, List.getLast?_reverse]
    cases T with
    | nil => simp [segs]
    | cons b t => simp [segs]

lemma orient_zset (f1 f2 f3 : Vec3 → ℝ) (a b c : Vec3) :
    orient (zset f1 a) (zset f2 b) (zset f3 c) = orient a b c := rfl

lemma crossingContrib_zset (f g : Vec3 → ℝ) (sa sb : Vec3 × Vec3) :
    crossingContrib (Prod.map (zset f) (zset f) sa) (Prod.map (zset g) (zset g) sb)
      = crossingContrib sa sb := rfl

lemma linking_zset (A B : List Vec3) (f g : Vec3 → ℝ) :
    computeLinkingBetween (A.map (zset f)) (B.map (zset g)) = computeLinkingBetween A B := by
  unfold computeLinkingBetween
  rw [segs_map (zset f) A, segs_map (zset g) B]
  simp only [List.map_map, Function.comp_def, crossingContrib_zset]

lemma map_zset_zero_congr {A A2 : List Vec3} (h : A.map projXY = A2.map projXY) :
    A.map (zset fun _ => 0) = A2.map (zset fun _ => 0) := by
  have e : ∀ L : List Vec3,
      L.map (zset fun _ => 0) = (L.map projXY).map (fun p => ⟨p.1, p.2, 0⟩) := by
    intro L
    rw [List.map_map]
    rfl
  rw [e A, e A2, h]

/-- C3: the computed linking value equals one half of the sum, over every
pair of one consecutive segment of `A` and one of `B`, of the
spec-described crossing term (sign of the first orientation term under
both strict straddle conditions, `0` whenever either orientation product
is exactly zero), and the Z coordinates never affect the result: any two
inputs with the same X,Y projections produce the same value. -/
theorem computeLinking_matches_spec (A B A2 B2 : List Vec3)
    (hA : A.map projXY = A2.map projXY) (hB : B.map projXY = B2.map projXY) :
    computeLinkingBetween A B = specLinkingValue A B ∧
      computeLinkingBetween A2 B2 = computeLinkingBetween A B := by
  constructor
  · unfold computeLinkingBetween specLinkingValue
    simp only [crossingContrib_eq_spec]
  · calc computeLinkingBetween A2 B2
        = computeLinkingBetween (A2.map (zset fun _ => 0)) (B2.map (zset fun _ => 0)) :=
          (linking_zset A2 B2 _ _).symm
      _ = computeLinkingBetween (A.map (zset fun _ => 0)) (B.map (zset fun _ => 0)) := by
          rw [map_zset_zero_congr hA, map_zset_zero_congr hB]
      _ = computeLinkingBetween A B := linking_zset A B _ _

/-- C3 witness: two one-point polylines differing only in Z. -/
theorem computeLinking_matches_spec_witness :
    (([⟨0, 0, 5⟩] : List Vec3).map projXY = ([⟨0, 0, 7⟩] : List Vec3).map projXY) ∧
      (([] : List Vec3).map projXY = ([] : List Vec3).map projXY) ∧
      (computeLinkingBetween [⟨0, 0, 5⟩] [] = specLinkingValue [⟨0, 0, 5⟩] [] ∧
        computeLinkingBetween [⟨0, 0, 7⟩] [] = computeLinkingBetween [⟨0, 0, 5⟩] []) :=
  ⟨rfl, rfl, computeLinking_matches_spec [⟨0, 0, 5⟩] [] [⟨0, 0, 7⟩] [] rfl rfl⟩

lemma innerSum_swap_reverse (sa : Vec3 × Vec3) (B : List Vec3) :
    ((((segs B).map Prod.swap).reverse).map (fun sb => crossingContrib (Prod.swap sa) sb)).sum
      = ((segs B).map (fun sb => crossingContrib sa sb)).sum := by
  rw [List.map_reverse, List.sum_reverse, List.map_map]
  simp only [Function.comp_def, crossingContrib_swap]

/-- C4: reversing both polylines' point orders simultaneously leaves the
computed linking value unchanged. -/
theorem computeLinking_reverse_both (A B : List Vec3) :
    computeLinkingBetween A.reverse B.reverse = computeLinkingBetween A B := by
  unfold computeLinkingBetween
  rw [segs_reverse A, segs_reverse B]
  rw [List.map_reverse, List.sum_reverse, List.map_map]
  simp only [Function.comp_def, innerSum_swap_reverse]

/-! ## Decoder lemmas -/

lemma nextdigit_filter (s : List Char) :
    nextdigit (s.filter (fun c => !isWsB c)) =
      ((nextdigit s).1, (nextdigit s).2.filter (fun c => !isWsB c)) := by
  induction s with
  | nil => simp [nextdigit]
  | cons c t ih =>
    by_cases hw : isWsB c
    · simp [nextdigit, List.filter_cons, hw, ih]
    · simp [nextdigit, List.filter_cons, hw]

lemma gPair_filter (s : List Char) :
    gPair (s.filter (fun c => !isWsB c)) =
      ((gPair s).1, (gPair s).2.filter (fun c => !isWsB c)) := by
  unfold gPair
  rw [nextdigit_filter s, nextdigit_filter (nextdigit s).2]

lemma decodeJoint_filter (s : List Char) :
    decodeJoint (s.filter (fun c => !isWsB c)) =
      ((decodeJoint s).1, (decodeJoint s).2.filter (fun c => !isWsB c)) := by
  unfold decodeJoint
  rw [gPair_filter s, gPair_filter (gPair s).2, gPair_filter (gPair (gPair s).2).2]

lemma decodeJoints_filter :
    ∀ (n : ℕ) (s : List Char),
      decodeJoints n (s.filter (fun c => !isWsB c)) =
        ((decodeJoints n s).1, (decodeJoints n s).2.filter (fun c => !isWsB c)) := by
  intro n
  induction n with
  | zero => intro s; simp [decodeJoints]
  | succ n2 ih =>
    intro s
    simp only [decodeJoints]
    rw [decodeJoint_filter s, ih (decodeJoint s).2]

lemma decodePositionString_filter (s : List Char) :
    decodePositionString s = decodePositionString (s.filter (fun c => !isWsB c)) := by
  unfold decodePositionString
  rw [decodeJoints_filter]

lemma decodeJoint_valid (cs : List Char)
    (h : ∀ c ∈ cs, isWsB c = false ∧ (charIndex c).isSome) (hlen : 6 ≤ cs.length) :
    (decodeJoint cs).1 =
      ⟨some ((symVal cs 0 * 62 + symVal cs 1) / 1000 - 2),
       some ((symVal cs 2 * 62 + symVal cs 3) / 1000),
       some ((symVal cs 4 * 62 + symVal cs 5) / 1000 - 2)⟩ ∧
    (decodeJoint cs).2 = cs.drop 6 := by
  rcases cs with _ | ⟨c0, _ | ⟨c1, _ | ⟨c2, _ | ⟨c3, _ | ⟨c4, _ | ⟨c5, rest⟩⟩⟩⟩⟩⟩
  · simp at hlen
  · simp at hlen
  · simp at hlen
  · simp at hlen
  · simp at hlen
  · simp at hlen
  obtain ⟨w0, s0⟩ := h c0 (by simp)
  obtain ⟨w1, s1⟩ := h c1 (by simp)
  obtain ⟨w2, s2⟩ := h c2 (by simp)
  obtain ⟨w3, s3⟩ := h c3 (by simp)
  obtain ⟨w4, s4⟩ := h c4 (by simp)
  obtain ⟨w5, s5⟩ := h c5 (by simp)
  obtain ⟨v0, hv0⟩ := Option.isSome_iff_exists.mp s0
  obtain ⟨v1, hv1⟩ := Option.isSome_iff_exists.mp s1
  obtain ⟨v2, hv2⟩ := Option.isSome_iff_exists.mp s2
  obtain ⟨v3, hv3⟩ := Option.isSome_iff_exists.mp s3
  obtain ⟨v4, hv4⟩ := Option.isSome_iff_exists.mp s4
  obtain ⟨v5, hv5⟩ := Option.isSome_iff_exists.mp s5
  constructor
  · simp [decodeJoint, gPair, nextdigit, w0, w1, w2, w3, w4, w5,
      hv0, hv1, hv2, hv3, hv4, hv5, symVal]
  · simp [decodeJoint, gPair, nextdigit, w0, w1, w2, w3, w4, w5,
      hv0, hv1, hv2, hv3, hv4, hv5]

lemma symVal_drop (cs : List Char) (m k : ℕ) : symVal (cs.drop m) k = symVal cs (m + k) := by
  unfold symVal
  rw [getD_drop]

lemma decodeJoints_valid :
    ∀ (n : ℕ) (cs : List Char),
      (∀ c ∈ cs, isWsB c = false ∧ (charIndex c).isSome) → 6 * n ≤ cs.length →
      (decodeJoints n cs).1.length = n ∧ (decodeJoints n cs).2 = cs.drop (6 * n) ∧
      ∀ i < n, (decodeJoints n cs).1.getD i pos0 =
        ⟨some ((symVal cs (6 * i) * 62 + symVal cs (6 * i + 1)) / 1000 - 2),
         some ((symVal cs (6 * i + 2) * 62 + symVal cs (6 * i + 3)) / 1000),
         some ((symVal cs (6 * i + 4) * 62 + symVal cs (6 * i + 5)) / 1000 - 2)⟩ := by
  intro n
  induction n with
  | zero => intro cs hv hlen; refine ⟨rfl, by simp [decodeJoints], ?_⟩; intro i hi; omega
  | succ n2 ih =>
    intro cs hv hlen
    have h6 : 6 ≤ cs.length := by omega
    obtain ⟨hd, hrem⟩ := decodeJoint_valid cs hv h6
    have hvd : ∀ c ∈ cs.drop 6, isWsB c = false ∧ (charIndex c).isSome :=
      fun c hc => hv c (List.mem_of_mem_drop hc)
    have hlend : 6 * n2 ≤ (cs.drop 6).length := by
      rw [List.length_drop]; omega
    obtain ⟨ihlen, ihrem, ihpos⟩ := ih (cs.drop 6) hvd hlend
    refine ⟨?_, ?_, ?_⟩
    · simp only [decodeJoints, List.length_cons, hrem, ihlen]
    · simp only [decodeJoints, hrem, ihrem, List.drop_drop]
      congr 1
      omega
    · intro i hi
      cases i with
      | zero =>
        simp only [decodeJoints, List.getD_cons_zero, hd]
      | succ i2 =>
        simp only [decodeJoints, List.getD_cons_succ, hrem]
        rw [ihpos i2 (by omega)]
        simp only [symVal_drop]
        rw [show 6 * (i2 + 1) = 6 + 6 * i2 by ring]
        simp [Nat.add_assoc]

/-- C5: the decoder skips whitespace between symbols (decoding a string
equals decoding the string with whitespace removed), and on an input
whose symbols are all valid base-62 characters with at least
`46 * 3 * 2 = 276` of them, it produces exactly 46 joint positions,
where position `i` is built from the six consecutive symbol values
`v(6i) … v(6i+5)` as `((v0*62+v1)/1000 - 2, (v2*62+v3)/1000,
(v4*62+v5)/1000 - 2)`: X and Z are shifted by `-2`, Y is unshifted. -/
theorem decodePositionString_spec (s cs : List Char)
    (hval : ∀ c ∈ cs, isWsB c = false ∧ (charIndex c).isSome)
    (hlen : 276 ≤ cs.length) :
    decodePositionString s = decodePositionString (s.filter (fun c => !isWsB c)) ∧
    (decodePositionString cs).length = 46 ∧
    ∀ i < 46, (decodePositionString cs).getD i pos0 =
      ⟨some ((symVal cs (6 * i) * 62 + symVal cs (6 * i + 1)) / 1000 - 2),
       some ((symVal cs (6 * i + 2) * 62 + symVal cs (6 * i + 3)) / 1000),
       some ((symVal cs (6 * i + 4) * 62 + symVal cs (6 * i + 5)) / 1000 - 2)⟩ := by
  obtain ⟨h1, _, h3⟩ := decodeJoints_valid 46 cs hval (by omega)
  exact ⟨decodePositionString_filter s, h1, h3⟩

set_option maxRecDepth 8000 in
/-- C5 witness: 276 copies of the symbol `a` (value 0) decode to 46
positions, and whitespace skipping is exercised on a concrete string. -/
theorem decodePositionString_spec_witness :
    (∀ c ∈ List.replicate 276 'a', isWsB c = false ∧ (charIndex c).isSome) ∧
      276 ≤ (List.replicate 276 'a').length ∧
      ((decodePositionString [' ', 'a'] =
          decodePositionString (([' ', 'a']).filter (fun c => !isWsB c))) ∧
        (decodePositionString (List.replicate 276 'a')).length = 46 ∧
        ∀ i < 46, (decodePositionString (List.replicate 276 'a')).getD i pos0 =
          ⟨some ((symVal (List.replicate 276 'a') (6 * i) * 62 +
              symVal (List.replicate 276 'a') (6 * i + 1)) / 1000 - 2),
           some ((symVal (List.replicate 276 'a') (6 * i + 2) * 62 +
              symVal (List.replicate 276 'a') (6 * i + 3)) / 1000),
           some ((symVal (List.replicate 276 'a') (6 * i + 4) * 62 +
              symVal (List.replicate 276 'a') (6 * i + 5)) / 1000 - 2)⟩) := by
  have hval : ∀ c ∈ List.replicate 276 'a', isWsB c = false ∧ (charIndex c).isSome := by
    intro c hc
    rw [List.eq_of_mem_replicate hc]
    exact ⟨by decide, by decide⟩
  have hlen : 276 ≤ (List.replicate 276 'a').length := by simp
  exact ⟨hval, hlen, decodePositionString_spec [' ', 'a'] _ hval hlen⟩

/-- C6: on an entry whose encoded text is exhausted before 46 positions
have been read, the decoder does not report any error: it still returns
exactly 46 positions, with the out-of-range coordinates `none`
(JavaScript `NaN`), and `parseGrappleMap` ingests the pose instead of
skipping it — the parsed result has one entry, whose second coordinate
of joint 0 and whole joint 1 already come from exhausted input. -/
theorem parse_truncated_pose_ingested :
    (parseGrappleMap [['p', 'o', 's', 'e'], [' ', 'a', 'b']]).length = 1 ∧
    ((parseGrappleMap [['p', 'o', 's', 'e'], [' ', 'a', 'b']]).getD 0
        ⟨[], []⟩).positions.length = 46 ∧
    (((parseGrappleMap [['p', 'o', 's', 'e'], [' ', 'a', 'b']]).getD 0
        ⟨[], []⟩).positions.getD 0 pos0).y = none ∧
    ((parseGrappleMap [['p', 'o', 's', 'e'], [' ', 'a', 'b']]).getD 0
        ⟨[], []⟩).positions.getD 1 pos0 = pos0 :=
  ⟨rfl, rfl, rfl, rfl⟩

/-! ## Nearest-state lemmas -/

lemma distF_nonneg (feat f : ℝ × ℝ) : 0 ≤ distF feat f := Real.sqrt_nonneg _

lemma distF_self (feat : ℝ × ℝ) : distF feat feat = 0 := by
  unfold distF
  simp

lemma distF_pos_of_ne (feat f : ℝ × ℝ) (h : f ≠ feat) : 0 < distF feat f := by
  unfold distF
  apply Real.sqrt_pos.mpr
  have h2 : f.1 ≠ feat.1 ∨ f.2 ≠ feat.2 := by
    by_contra hc
    push_neg at hc
    exact h (Prod.ext_iff.mpr ⟨hc.1, hc.2⟩)
  rcases h2 with h2 | h2
  · have hp : 0 < (f.1 - feat.1) * (f.1 - feat.1) := mul_self_pos.mpr (sub_ne_zero.mpr h2)
    nlinarith [mul_self_nonneg (f.2 - feat.2)]
  · have hp : 0 < (f.2 - feat.2) * (f.2 - feat.2) := mul_self_pos.mpr (sub_ne_zero.mpr h2)
    nlinarith [mul_self_nonneg (f.1 - feat.1)]

lemma foldl_nearStep_zero (feat : ℝ × ℝ) :
    ∀ (l : List (ℕ × Option (ℝ × ℝ))) (acc : ℤ × EReal), acc.2 = 0 →
      List.foldl (nearStep feat) acc l = acc := by
  intro l
  induction l with
  | nil => intro acc h; rfl
  | cons p t ih =>
    intro acc h
    rw [List.foldl_cons]
    have hstep : nearStep feat acc p = acc := by
      cases hp : p.2 with
      | none => simp [nearStep, hp]
      | some f =>
        have hn : ¬((distF feat f : EReal) < acc.2) := by
          rw [h]
          exact not_lt.mpr (by exact_mod_cast distF_nonneg feat f)
        simp [nearStep, hp, hn]
    rw [hstep, ih acc h]

lemma foldl_nearStep_exact (feat : ℝ × ℝ) :
    ∀ (L : List (Option (ℝ × ℝ))) (k : ℕ) (acc : ℤ × EReal),
      (0 : EReal) < acc.2 →
      (∃ j, L.getD j none = some feat) →
      (List.foldl (nearStep feat) acc (L.enumFrom k)).2 = 0 ∧
      ∃ i, (List.foldl (nearStep feat) acc (L.enumFrom k)).1 = ((k + i : ℕ) : ℤ) ∧
        L.getD i none = some feat ∧ ∀ j < i, L.getD j none ≠ some feat := by
  intro L
  induction L with
  | nil =>
    intro k acc hacc hex
    obtain ⟨j, hj⟩ := hex
    simp at hj
  | cons o T ih =>
    intro k acc hacc hex
    rw [show List.enumFrom k (o :: T) = (k, o) :: List.enumFrom (k + 1) T from rfl,
      List.foldl_cons]
    cases o with
    | none =>
      have hstep : nearStep feat acc (k, none) = acc := rfl
      rw [hstep]
      have hex2 : ∃ j, T.getD j none = some feat := by
        obtain ⟨j, hj⟩ := hex
        cases j with
        | zero => simp at hj
        | succ j2 => exact ⟨j2, by simpa using hj⟩
      obtain ⟨h2, i, hi1, hi2, hi3⟩ := ih (k + 1) acc hacc hex2
      refine ⟨h2, i + 1, ?_, by simpa using hi2, ?_⟩
      · rw [hi1]; congr 1; omega
      · intro j hj
        cases j with
        | zero => simp
        | succ j2 => simpa using hi3 j2 (by omega)
    | some f =>
      by_cases hf : f = feat
      · have hdz : distF feat f = 0 := by rw [hf, distF_self]
        have hstep : nearStep feat acc (k, some f) = ((k : ℤ), (0 : EReal)) := by
          simp [nearStep, hdz, hacc]
        rw [hstep, foldl_nearStep_zero feat _ _ rfl]
        exact ⟨rfl, 0, by simp, by simp [hf], by omega⟩
      · have hd : 0 < distF feat f := distF_pos_of_ne feat f hf
        obtain ⟨acc2, hs, hacc2⟩ :
            ∃ acc2 : ℤ × EReal, nearStep feat acc (k, some f) = acc2 ∧ (0 : EReal) < acc2.2 := by
          by_cases hlt : (distF feat f : EReal) < acc.2
          · refine ⟨((k : ℤ), (distF feat f : EReal)), by simp [nearStep, hlt], ?_⟩
            show (0 : EReal) < (distF feat f : EReal)
            exact_mod_cast hd
          · exact ⟨acc, by simp [nearStep, hlt], hacc⟩
        rw [hs]
        have hex2 : ∃ j, T.getD j none = some feat := by
          obtain ⟨j, hj⟩ := hex
          cases j with
          | zero =>
            simp only [List.getD_cons_zero, Option.some.injEq] at hj
            exact absurd hj hf
          | succ j2 => exact ⟨j2, by simpa using hj⟩
        obtain ⟨h2, i, hi1, hi2, hi3⟩ := ih (k + 1) acc2 hacc2 hex2
        refine ⟨h2, i + 1, ?_, by simpa using hi2, ?_⟩
        · rw [hi1]; congr 1; omega
        · intro j hj
          cases j with
          | zero => simpa using hf
          | succ j2 => simpa using hi3 j2 (by omega)

/-- C8: when the query feature vector exactly equals the stored feature
vector of some state, `findNearestState` returns distance 0 and the index
of the first state in insertion order whose stored vector equals the
query (ties resolve to the first-encountered state). -/
theorem findNearestState_exact (states : List (Option (ℝ × ℝ))) (feat : ℝ × ℝ)
    (h : ∃ j, states.getD j none = some feat) :
    (findNearestState states feat).2 = 0 ∧
    ∃ i : ℕ, (findNearestState states feat).1 = (i : ℤ) ∧
      states.getD i none = some feat ∧ ∀ j < i, states.getD j none ≠ some feat := by
  unfold findNearestState
  rw [show states.enum = states.enumFrom 0 from rfl]
  have htop : (0 : EReal) < ((-1 : ℤ), (⊤ : EReal)).2 := by
    simp
  obtain ⟨h2, i, h3, h4, h5⟩ := foldl_nearStep_exact feat states 0 (-1, ⊤) htop h
  exact ⟨h2, i, by simpa using h3, h4, h5⟩

/-- C8 witness: one stored state whose feature vector equals the query. -/
theorem findNearestState_exact_witness :
    (∃ j, ([some ((1 : ℝ), (2 : ℝ))] : List (Option (ℝ × ℝ))).getD j none = some (1, 2)) ∧
    ((findNearestState [some ((1 : ℝ), (2 : ℝ))] (1, 2)).2 = 0 ∧
      ∃ i : ℕ, (findNearestState [some ((1 : ℝ), (2 : ℝ))] (1, 2)).1 = (i : ℤ) ∧
        ([some ((1 : ℝ), (2 : ℝ))] : List (Option (ℝ × ℝ))).getD i none = some (1, 2) ∧
        ∀ j < i, ([some ((1 : ℝ), (2 : ℝ))] : List (Option (ℝ × ℝ))).getD j none ≠ some (1, 2)) :=
  ⟨⟨0, rfl⟩, findNearestState_exact [some ((1 : ℝ), (2 : ℝ))] (1, 2) ⟨0, rfl⟩⟩

lemma foldl_nearStep_all_none (feat : ℝ × ℝ) :
    ∀ (L : List (Option (ℝ × ℝ))) (k : ℕ) (acc : ℤ × EReal),
      (∀ o ∈ L, o = none) →
      List.foldl (nearStep feat) acc (L.enumFrom k) = acc := by
  intro L
  induction L with
  | nil => intro k acc _; rfl
  | cons o T ih =>
    intro k acc h
    rw [show List.enumFrom k (o :: T) = (k, o) :: List.enumFrom (k + 1) T from rfl,
      List.foldl_cons]
    rw [h o (by simp)]
    exact ih (k + 1) acc (fun o2 ho2 => h o2 (by simp [ho2]))

/-- C10: when the state collection is empty or no state carries a feature
vector, `findNearestState` does not fail: it returns index `-1` with
infinite distance as a sentinel. -/
theorem findNearestState_empty_sentinel (states : List (Option (ℝ × ℝ))) (feat : ℝ × ℝ)
    (h : ∀ o ∈ states, o = none) :
    findNearestState states feat = (-1, ⊤) := by
  unfold findNearestState
  rw [show states.enum = states.enumFrom 0 from rfl]
  exact foldl_nearStep_all_none feat states 0 (-1, ⊤) h

/-- C10 witness: the empty state collection. -/
theorem findNearestState_empty_sentinel_witness :
    (∀ o ∈ ([] : List (Option (ℝ × ℝ))), o = none) ∧
      findNearestState [] (0, 0) = (-1, ⊤) :=
  ⟨by simp, findNearestState_empty_sentinel [] (0, 0) (by simp)⟩

/-! ## Ring-clamp lemmas (SkeletonTree, modelled from the spec) -/

lemma dot3_smul_left (c : ℝ) (v w : Vec3) : dot3 (c • v) w = c * dot3 v w := by
  unfold dot3
  simp
  ring

lemma dot3_self (v : Vec3) : dot3 v v = (vnorm v) ^ 2 := by
  unfold dot3 vnorm
  rw [Real.sq_sqrt (by positivity)]
  ring

/-- C2 counterexample: with the shoulders at `(-1,0,0)` and `(1,0,0)`,
the head at the origin, and `ringWidth` equal to the initial
shoulder-to-shoulder distance 2, the purely transverse head move by
`(0,5,0)` has zero radial component towards either shoulder, so neither
clamp fires, and the post-move head-to-left-shoulder distance is
`sqrt 26 > ringWidth + 1` — the ring invariance claim fails. -/
theorem ring_invariance_cex :
    vnorm (moveHeadClamped ⟨0, 0, 0⟩ ⟨-1, 0, 0⟩ ⟨1, 0, 0⟩
        (vnorm ((⟨1, 0, 0⟩ : Vec3) - ⟨-1, 0, 0⟩)) ⟨0, 5, 0⟩ - ⟨-1, 0, 0⟩)
      > vnorm ((⟨1, 0, 0⟩ : Vec3) - ⟨-1, 0, 0⟩) + 1 := by
  have hR : vnorm ((⟨1, 0, 0⟩ : Vec3) - ⟨-1, 0, 0⟩) = 2 := by
    unfold vnorm
    simp only [Vec3.sub_def_x, Vec3.sub_def_y, Vec3.sub_def_z]
    rw [show ((1 : ℝ) - -1) ^ 2 + ((0 : ℝ) - 0) ^ 2 + ((0 : ℝ) - 0) ^ 2 = 2 ^ 2 by norm_num,
      Real.sqrt_sq (by norm_num : (0 : ℝ) ≤ 2)]
  have hclamp1 : clampRadial ⟨0, 0, 0⟩ ⟨-1, 0, 0⟩ 2 ⟨0, 5, 0⟩ = ⟨0, 5, 0⟩ := by
    unfold clampRadial
    rw [if_neg]
    intro hcond
    have hdot : dot3 (⟨0, 5, 0⟩ : Vec3)
        ((1 / vnorm ((⟨0, 0, 0⟩ : Vec3) - ⟨-1, 0, 0⟩)) • ((⟨0, 0, 0⟩ : Vec3) - ⟨-1, 0, 0⟩))
        = 0 := by
      simp [dot3]
    rw [hdot] at hcond
    exact lt_irrefl 0 hcond.1
  have hclamp2 : clampRadial ⟨0, 0, 0⟩ ⟨1, 0, 0⟩ 2 ⟨0, 5, 0⟩ = ⟨0, 5, 0⟩ := by
    unfold clampRadial
    rw [if_neg]
    intro hcond
    have hdot : dot3 (⟨0, 5, 0⟩ : Vec3)
        ((1 / vnorm ((⟨0, 0, 0⟩ : Vec3) - ⟨1, 0, 0⟩)) • ((⟨0, 0, 0⟩ : Vec3) - ⟨1, 0, 0⟩))
        = 0 := by
      simp [dot3]
    rw [hdot] at hcond
    exact lt_irrefl 0 hcond.1
  rw [hR]
  unfold moveHeadClamped
  rw [hclamp1, hclamp2]
  have hfinal : ((⟨0, 0, 0⟩ : Vec3) + ⟨0, 5, 0⟩ - ⟨-1, 0, 0⟩) = ⟨1, 5, 0⟩ := by
    ext <;> simp
  rw [hfinal]
  have hv26 : vnorm (⟨1, 5, 0⟩ : Vec3) = Real.sqrt 26 := by
    unfold vnorm
    norm_num
  rw [hv26, gt_iff_lt, show (2 : ℝ) + 1 = 3 by norm_num]
  exact (Real.lt_sqrt (by norm_num : (0 : ℝ) ≤ 3)).mpr (by norm_num)

/-- C2 amended: the radial clamp does preserve the ring bound for
purely outward-radial moves: when the requested `delta` is a nonnegative
multiple of the unit vector from the ring partner `j` towards the moved
joint `p`, and the pre-move distance is at most `ringWidth`, the
post-move distance stays at most `ringWidth`.  (For a `delta` with a
transverse component the clamp does not bound the distance, as the
counterexample shows.) -/
theorem ring_clamp_radial_outward (p j delta : Vec3) (R t : ℝ)
    (hd : 0 < vnorm (p - j)) (hpre : vnorm (p - j) ≤ R) (ht : 0 ≤ t)
    (hdel : delta = t • ((1 / vnorm (p - j)) • (p - j))) :
    vnorm (p + clampRadial p j R delta - j) ≤ R := by
  have hd0 : vnorm (p - j) ≠ 0 := ne_of_gt hd
  have hR0 : 0 ≤ R := le_trans (vnorm_nonneg _) hpre
  have hu : vnorm ((1 / vnorm (p - j)) • (p - j)) = 1 := by
    rw [vnorm_smul, abs_of_nonneg (div_nonneg zero_le_one (le_of_lt hd)),
      one_div_mul_cancel hd0]
  have ha : dot3 delta ((1 / vnorm (p - j)) • (p - j)) = t := by
    rw [hdel, dot3_smul_left, dot3_self, hu]
    norm_num
  unfold clampRadial
  rw [ha]
  split_ifs with hcond
  · have hkey : p + (delta - (vnorm (p - j) + t - R) • ((1 / vnorm (p - j)) • (p - j))) - j
        = (R / vnorm (p - j)) • (p - j) := by
      rw [hdel]
      ext <;> simp <;> field_simp <;> ring
    rw [hkey, vnorm_smul, abs_of_nonneg (div_nonneg hR0 (le_of_lt hd)),
      div_mul_cancel₀ _ hd0]
  · push_neg at hcond
    rcases eq_or_lt_of_le ht with ht0 | htpos
    · have hzero : p + delta - j = p - j := by
        rw [hdel, ← ht0]
        ext <;> simp
      rw [hzero]
      exact hpre
    · exact hcond htpos

/-- C2 amended witness: a concrete outward-radial move of length 5 from
distance 1 against ring width 2 is clamped back to the ring. -/
theorem ring_clamp_radial_outward_witness :
    (0 < vnorm ((⟨1, 0, 0⟩ : Vec3) - ⟨0, 0, 0⟩) ∧
      vnorm ((⟨1, 0, 0⟩ : Vec3) - ⟨0, 0, 0⟩) ≤ 2 ∧ (0 : ℝ) ≤ 5) ∧
    vnorm ((⟨1, 0, 0⟩ : Vec3) +
        clampRadial ⟨1, 0, 0⟩ ⟨0, 0, 0⟩ 2
          ((5 : ℝ) • ((1 / vnorm ((⟨1, 0, 0⟩ : Vec3) - ⟨0, 0, 0⟩)) •
            ((⟨1, 0, 0⟩ : Vec3) - ⟨0, 0, 0⟩))) - ⟨0, 0, 0⟩) ≤ 2 := by
  have h1 : vnorm ((⟨1, 0, 0⟩ : Vec3) - ⟨0, 0, 0⟩) = 1 := by
    unfold vnorm
    norm_num
  refine ⟨⟨by rw [h1]; norm_num, by rw [h1]; norm_num, by norm_num⟩, ?_⟩
  exact ring_clamp_radial_outward ⟨1, 0, 0⟩ ⟨0, 0, 0⟩ _ 2 5
    (by rw [h1]; norm_num) (by rw [h1]; norm_num) (by norm_num) rfl
